import Mathlib

/-!
Verification of the step-wise, resumable task execution engine specified for
the `llama_index` agent-runner notebook (`docs/examples/agent/agent_runner/
agent_runner_rag.ipynb`).  The notebook only *calls* the engine
(`create_task`, `run_step`, `get_completed_steps`, `get_upcoming_steps`,
`finalize_response`, `chat`, `list_tasks`); the engine itself lives in the
library part of the repository, outside the files available here, so every
engine definition below is modelled from the specification's words
(sections 3, 4.3, 4.4, 4.5, 7 of the spec).
-/

set_option autoImplicit false

namespace AgentRunner

/-- Modelled from the spec: step lifecycle states of the Step Executor state
machine (spec 4.3).  `RUNNING` is transient and not externally observable, so
it is not a constructor. -/
inductive StepState where
  | pending
  | completed
  | failed
deriving DecidableEq, Repr

/-- Modelled from the spec: one `(tool_name, arguments, result)` record kept
for observability (spec 3, `StepOutput.tool_calls`). -/
structure ToolRec where
  toolName : String
  arguments : String
  result : String
deriving DecidableEq, Repr

/-- Modelled from the spec: a `TaskStep` of the task's step DAG (spec 3).
`nextSteps`/`prevSteps` are stored as sets of step ids, per the design note
in spec 9. -/
structure TaskStep where
  taskId : Nat
  stepId : Nat
  input : Option String
  stepState : StepState
  nextSteps : List Nat
  prevSteps : List Nat
  isReady : Bool
deriving DecidableEq, Repr

/-- Modelled from the spec: the `StepOutput` produced by one run of a step
(spec 3). -/
structure StepOutput where
  output : String
  isLast : Bool
  toolCalls : List ToolRec
deriving DecidableEq, Repr

/-- Modelled from the spec: a `Task` (spec 3) together with the Task Store's
per-task bookkeeping (spec 4.4): the arena of steps in creation order, the
completed steps in execution order with their outputs, and the cached
finalize `Response` (`none` until `finalize_response` succeeds). -/
structure Task where
  taskId : Nat
  input : String
  steps : List TaskStep
  completed : List (Nat × StepOutput)
  result : Option String
deriving DecidableEq, Repr

/-- Modelled from the spec: the planner's tagged decision variant
(spec 4.2). -/
inductive Decision where
  | toolCall (name : String) (arguments : String)
  | finalAnswer (text : String)
deriving DecidableEq, Repr

/-- Modelled from the spec: the Planner Adapter's decision oracle (spec 4.2,
6): it receives the original task input and the ordered history of tool-call
records and returns a `Decision`. -/
def Planner : Type := String → List ToolRec → Decision

/-- Modelled from the spec: a named tool of the Tool Registry (spec 4.1):
an immutable name→callable binding with a description. -/
structure Tool where
  name : String
  description : String
  run : String → String

/-- Modelled from the spec: the Tool Registry's ordered bindings
(spec 4.1). -/
def Registry : Type := List Tool

/-- Modelled from the spec: `resolve(name)` of the Tool Registry (spec 4.1);
`none` corresponds to `UnknownToolError`. -/
def resolve (reg : Registry) (name : String) : Option Tool :=
  reg.find? (fun tl => tl.name == name)

/-- Modelled from the spec: the error taxonomy of spec 7 (the cases the
claims exercise). -/
inductive EngineError where
  | unknownTask (taskId : Nat)
  | noReadyStep (taskId : Nat)
  | unknownTool (name : String)
  | taskNotFinished (taskId : Nat)
deriving DecidableEq, Repr

/-- Modelled from the spec: the Orchestrator's whole state: the Task Store's
tasks in creation order, the long-lived conversation memory, and the next
fresh task id. -/
structure AgentState where
  tasks : List Task
  memory : List String
  nextTaskId : Nat
deriving DecidableEq, Repr

/-- The initial state: no tasks, empty long-lived memory. -/
def initState : AgentState := { tasks := [], memory := [], nextTaskId := 0 }

/-- Modelled from the spec: `get(task_id)` of the Task Store (spec 4.4). -/
def getTask (st : AgentState) (tid : Nat) : Option Task :=
  st.tasks.find? (fun t => t.taskId == tid)

/-- Replace the stored task whose id matches `t.taskId` by `t`. -/
def setTask (st : AgentState) (t : Task) : AgentState :=
  { st with tasks := st.tasks.map (fun u => if u.taskId = t.taskId then t else u) }

/-- Modelled from the spec: `create(input)` / `create_task(input)`
(spec 4.4, 4.5): allocates a fresh task with a single initial `PENDING` step
whose input equals the task's input. -/
def createTask (input : String) (st : AgentState) : Task × AgentState :=
  let step0 : TaskStep :=
    { taskId := st.nextTaskId, stepId := 0, input := some input,
      stepState := .pending, nextSteps := [], prevSteps := [], isReady := true }
  let t : Task :=
    { taskId := st.nextTaskId, input := input, steps := [step0],
      completed := [], result := none }
  (t, { tasks := st.tasks ++ [t], memory := st.memory,
        nextTaskId := st.nextTaskId + 1 })

/-- A step is ready to run when `is_ready` holds and it has not run yet. -/
def isRunnable (s : TaskStep) : Bool :=
  s.isReady && s.stepState == .pending

/-- The first ready step of a task, if any. -/
def readyStep (t : Task) : Option TaskStep :=
  t.steps.find? isRunnable

/-- Modelled from the spec: `upcoming_steps(task_id)` (spec 4.4): the steps
whose `is_ready` is true and that have not yet run. -/
def upcomingSteps (t : Task) : List TaskStep :=
  t.steps.filter isRunnable

/-- Modelled from the spec: `completed_steps(task_id)` (spec 4.4): the
completed steps in execution order. -/
def completedSteps (t : Task) : List TaskStep :=
  t.completed.filterMap (fun p => t.steps.find? (fun s => s.stepId == p.1))

/-- The ordered history of tool-call records accumulated by a task's
completed steps, as handed to the planner (spec 6). -/
def histRecs (t : Task) : List ToolRec :=
  (t.completed.map (fun p => p.2.toolCalls)).flatten

/-- Mark the step with id `sid` as `COMPLETED` and point its `next_steps`
at the ids in `nxt`. -/
def markCompleted (steps : List TaskStep) (sid : Nat) (nxt : List Nat) :
    List TaskStep :=
  steps.map (fun s =>
    if s.stepId = sid then
      { s with stepState := .completed, nextSteps := s.nextSteps ++ nxt }
    else s)

/-- Mark the step with id `sid` as `FAILED`. -/
def markFailed (steps : List TaskStep) (sid : Nat) : List TaskStep :=
  steps.map (fun s => if s.stepId = sid then { s with stepState := .failed } else s)

/-- The fresh successor `PENDING` step enqueued after a tool call: its input
is `none` (execution depends purely on internal memory, per the notebook's
note), it is ready (its only predecessor has just completed), and its id is
fresh for the task's arena. -/
def successorStep (t : Task) (cur : TaskStep) : TaskStep :=
  { taskId := t.taskId, stepId := t.steps.length, input := none,
    stepState := .pending, nextSteps := [], prevSteps := [cur.stepId],
    isReady := true }

/-- Modelled from the spec: one planning/tool-call round of the Step
Executor on the ready step `cur` of task `t` (spec 4.3).  The planner is
consulted with the task input and accumulated history; on `ToolCall` the
registry resolves and invokes the tool, the raw result is appended to
`tool_calls` and one successor `PENDING` step is enqueued with `next_steps`
pointing to it; on `FinalAnswer` the output has `is_last = true` and no
successor is created.  An unknown tool records the step as `FAILED`, does
not extend the DAG, and surfaces `UnknownToolError`. -/
def execDecision (planner : Planner) (reg : Registry) (t : Task)
    (cur : TaskStep) : Except EngineError StepOutput × Task :=
  match planner t.input (histRecs t) with
  | .finalAnswer text =>
    let out : StepOutput := { output := text, isLast := true, toolCalls := [] }
    (.ok out,
     { t with steps := markCompleted t.steps cur.stepId [],
              completed := t.completed ++ [(cur.stepId, out)] })
  | .toolCall name args =>
    match resolve reg name with
    | none =>
      (.error (.unknownTool name),
       { t with steps := markFailed t.steps cur.stepId })
    | some tl =>
      let res := tl.run args
      let succ := successorStep t cur
      let out : StepOutput :=
        { output := res, isLast := false,
          toolCalls := [{ toolName := name, arguments := args, result := res }] }
      (.ok out,
       { t with steps := markCompleted t.steps cur.stepId [succ.stepId] ++ [succ],
                completed := t.completed ++ [(cur.stepId, out)] })

/-- Modelled from the spec: `run_step(task_id)` (spec 4.3, 4.5): executes
exactly one ready step of the task via `execDecision`; with no ready step
the call fails with `NoReadyStepError` rather than silently no-op-ing;
errors leave the rest of the state untouched. -/
def runStep (planner : Planner) (reg : Registry) (tid : Nat)
    (st : AgentState) : Except EngineError StepOutput × AgentState :=
  match getTask st tid with
  | none => (.error (.unknownTask tid), st)
  | some t =>
    match readyStep t with
    | none => (.error (.noReadyStep tid), st)
    | some cur =>
      match execDecision planner reg t cur with
      | (r, t') => (r, setTask st t')

/-- Modelled from the spec: the task's full step history as merged into
long-lived memory at finalize (spec 4.5, 9): the original input followed by
each completed step's output, in execution order. -/
def taskHistory (t : Task) : List String :=
  t.input :: t.completed.map (fun p => p.2.output)

/-- Modelled from the spec: `finalize_response(task_id)` (spec 4.5):
requires the most recently completed step to have `is_last = true`, else
`TaskNotFinishedError`.  On success it merges the task's full step history
into long-lived memory exactly once and caches the `Response`; a second call
returns the cached `Response` without touching memory. -/
def finalizeResponse (tid : Nat) (st : AgentState) :
    Except EngineError String × AgentState :=
  match getTask st tid with
  | none => (.error (.unknownTask tid), st)
  | some t =>
    match t.result with
    | some r => (.ok r, st)
    | none =>
      match t.completed.getLast? with
      | none => (.error (.taskNotFinished tid), st)
      | some p =>
        if p.2.isLast then
          let r := p.2.output
          (.ok r, { setTask st { t with result := some r } with
                    memory := st.memory ++ taskHistory t })
        else (.error (.taskNotFinished tid), st)

/-- Modelled from the spec: the loop inside `run` (spec 4.5): repeatedly
execute ready steps until a step reports `is_last = true`, then finalize.
The fuel bounds the number of rounds. -/
def chatLoop (planner : Planner) (reg : Registry) (tid : Nat) :
    Nat → AgentState → Except EngineError String × AgentState
  | 0, st => (.error (.noReadyStep tid), st)
  | fuel + 1, st =>
    match runStep planner reg tid st with
    | (.error e, st') => (.error e, st')
    | (.ok out, st') =>
      if out.isLast then finalizeResponse tid st'
      else chatLoop planner reg tid fuel st'

/-- Modelled from the spec: `run(input)` / the notebook's `agent.chat`
(spec 4.5): creates a task, then loops until a terminal step, then
finalizes. -/
def chat (planner : Planner) (reg : Registry) (input : String) (fuel : Nat)
    (st : AgentState) : Except EngineError String × AgentState :=
  let (t, st1) := createTask input st
  chatLoop planner reg t.taskId fuel st1

/-- The step-wise protocol of the notebook: `run_step` repeated until the
returned `StepOutput` has `is_last = true` (same fuel bound). -/
def driveSteps (planner : Planner) (reg : Registry) (tid : Nat) :
    Nat → AgentState → Except EngineError StepOutput × AgentState
  | 0, st => (.error (.noReadyStep tid), st)
  | fuel + 1, st =>
    match runStep planner reg tid st with
    | (.error e, st') => (.error e, st')
    | (.ok out, st') =>
      if out.isLast then (.ok out, st')
      else driveSteps planner reg tid fuel st'

/-- The notebook's full step-wise session: `create_task`, then `run_step`
until `is_last`, then `finalize_response` on that task. -/
def stepwiseRun (planner : Planner) (reg : Registry) (input : String)
    (fuel : Nat) (st : AgentState) : Except EngineError String × AgentState :=
  let (t, st1) := createTask input st
  match driveSteps planner reg t.taskId fuel st1 with
  | (.error e, st2) => (.error e, st2)
  | (.ok _, st2) => finalizeResponse t.taskId st2

/-- Modelled from the spec: `list_tasks` (spec 4.4 `list()`): the tasks in
creation order. -/
def listTasks (st : AgentState) : List Task := st.tasks

/-- The state-level projection of `get_completed_steps` (spec 4.5). -/
def getCompletedSteps (st : AgentState) (tid : Nat) : Option (List TaskStep) :=
  (getTask st tid).map completedSteps

/-- The state-level projection of `get_upcoming_steps` (spec 4.5). -/
def getUpcomingSteps (st : AgentState) (tid : Nat) : Option (List TaskStep) :=
  (getTask st tid).map upcomingSteps

/-- One invocation of the Orchestrator's mutating API surface (spec 4.5):
`create_task`, `run_step` or `finalize_response`. -/
inductive Op where
  | create (input : String)
  | step (planner : Planner) (reg : Registry) (tid : Nat)
  | finalize (tid : Nat)

/-- The state effect of one API invocation. -/
def applyOp (st : AgentState) : Op → AgentState
  | .create input => (createTask input st).2
  | .step planner reg tid => (runStep planner reg tid st).2
  | .finalize tid => (finalizeResponse tid st).2

/-- The state after a sequence of API invocations. -/
def applyOps (st : AgentState) (ops : List Op) : AgentState :=
  ops.foldl applyOp st

/-- A state is reachable when some sequence of API invocations produces it
from the initial state. -/
def Reachable (st : AgentState) : Prop :=
  ∃ ops : List Op, applyOps initState ops = st

/-- Whether an API invocation is a `finalize_response` call. -/
def committing : Op → Bool
  | .finalize _ => true
  | _ => false

/-- The per-task well-formedness invariant maintained by the engine: step
ids are exactly the arena positions, every entry of the execution-ordered
completed list names a distinct `COMPLETED` arena step, at most one step is
ready to run, a task whose most recent completed step is terminal has no
ready step left, and a cached finalize `Response` comes from a terminal most
recent completed step. -/
structure TaskInv (t : Task) : Prop where
  ids_range : t.steps.map TaskStep.stepId = List.range t.steps.length
  completed_mem : ∀ p ∈ t.completed,
    ∃ s, s ∈ t.steps ∧ s.stepId = p.1 ∧ s.stepState = StepState.completed
  completed_nodup : (t.completed.map Prod.fst).Nodup
  runnable_le_one : (t.steps.filter isRunnable).length ≤ 1
  finished_no_runnable : ∀ p, t.completed.getLast? = some p →
    p.2.isLast = true → t.steps.filter isRunnable = []
  result_ok : ∀ r, t.result = some r →
    ∃ p, t.completed.getLast? = some p ∧ p.2.isLast = true ∧ p.2.output = r

/-- The well-formedness invariant of the whole Orchestrator state: stored
task ids are below the allocation counter and every stored task is
well-formed. -/
structure StateInv (st : AgentState) : Prop where
  ids_lt : ∀ t ∈ st.tasks, t.taskId < st.nextTaskId
  tasks_inv : ∀ t ∈ st.tasks, TaskInv t

/-- A stub planner that immediately returns `FinalAnswer "4"` (the spec's
"What is 2+2?" scenario). -/
def plannerFinal : Planner := fun _ _ => Decision.finalAnswer "4"

/-- The `echo` tool: returns its input unchanged. -/
def echoTool : Tool :=
  { name := "echo", description := "echoes its input", run := fun s => s }

/-- A registry holding only the `echo` tool. -/
def regEcho : Registry := [echoTool]

/-- A stub planner that first requests `echo`, then answers with the tool's
result (the spec's two-step scenario). -/
def plannerEcho : Planner := fun _ hist =>
  match hist with
  | [] => Decision.toolCall "echo" "hi"
  | rc :: _ => Decision.finalAnswer rc.result

/-- A stub planner that requests the unregistered tool `missing`. -/
def plannerMissing : Planner := fun _ _ => Decision.toolCall "missing" "x"

/-- Example state: one task created from the spec's example input. -/
def exSt0 : AgentState := (createTask "What is 2+2?" initState).2

/-- The task created in `exSt0`. -/
def exTask0 : Task := (createTask "What is 2+2?" initState).1

/-- Example state: the task of `exSt0` after its single final-answer step. -/
def exSt1 : AgentState := (runStep plannerFinal [] 0 exSt0).2

/-- The `StepOutput` of the final-answer step in `exSt1`. -/
def exOut : StepOutput := { output := "4", isLast := true, toolCalls := [] }

/-- The completed form of the example task as stored in `exSt1`. -/
def exTask1 : Task :=
  { taskId := 0, input := "What is 2+2?",
    steps := [{ taskId := 0, stepId := 0, input := some "What is 2+2?",
                stepState := .completed, nextSteps := [], prevSteps := [],
                isReady := true }],
    completed := [(0, exOut)], result := none }

/-- Example state: the finalized form of `exSt1`. -/
def exSt2 : AgentState := (finalizeResponse 0 exSt1).2

/-- Example state: one task created from input `"q"`. -/
def exStE : AgentState := (createTask "q" initState).2

/-- The task created in `exStE`. -/
def exTaskE : Task := (createTask "q" initState).1

/-- The initial (ready, pending) step of `exTaskE`. -/
def exCurE : TaskStep :=
  { taskId := 0, stepId := 0, input := some "q", stepState := .pending,
    nextSteps := [], prevSteps := [], isReady := true }

/-- The example API call sequence producing `exSt1` from the initial
state. -/
def exOps : List Op := [Op.create "What is 2+2?", Op.step plannerFinal [] 0]

/-! ### Basic lemmas about the Task Store -/

theorem taskId_of_getTask {st : AgentState} {tid : Nat} {t : Task}
    (h : getTask st tid = some t) : t.taskId = tid := by
  have := List.find?_some h
  simpa using this

theorem mem_of_getTask {st : AgentState} {tid : Nat} {t : Task}
    (h : getTask st tid = some t) : t ∈ st.tasks :=
  List.mem_of_find?_eq_some h

theorem getTask_setTask {st : AgentState} {tid : Nat} {t t' : Task}
    (h : getTask st tid = some t) (h' : t'.taskId = tid) :
    getTask (setTask st t') tid = some t' := by
  unfold getTask setTask at *
  rw [List.find?_map]
  have hpred : ((fun u : Task => u.taskId == tid) ∘
      fun u : Task => if u.taskId = t'.taskId then t' else u) =
      fun u : Task => u.taskId == tid := by
    funext u
    by_cases hu : u.taskId = t'.taskId
    · simp [hu, h']
    · simp [hu]
  rw [hpred, h]
  have ht : t.taskId = tid := by simpa using List.find?_some h
  simp [ht, h']

theorem getTask_setTask_ne {st : AgentState} {tid : Nat} {t' : Task}
    (h : t'.taskId ≠ tid) :
    getTask (setTask st t') tid = getTask st tid := by
  unfold getTask setTask
  rw [List.find?_map]
  have hpred : ((fun u : Task => u.taskId == tid) ∘
      fun u : Task => if u.taskId = t'.taskId then t' else u) =
      fun u : Task => u.taskId == tid := by
    funext u
    by_cases hu : u.taskId = t'.taskId
    · simp [hu]
    · simp [hu]
  rw [hpred]
  cases hf : st.tasks.find? (fun u : Task => u.taskId == tid) with
  | none => rfl
  | some x =>
    have hx : x.taskId = tid := by simpa using List.find?_some hf
    have : x.taskId ≠ t'.taskId := by
      rw [hx]
      exact fun he => h he.symm
    simp [this]

theorem setTask_memory (st : AgentState) (t' : Task) :
    (setTask st t').memory = st.memory := rfl

theorem map_taskId_setTask (st : AgentState) (t' : Task) :
    (setTask st t').tasks.map Task.taskId = st.tasks.map Task.taskId := by
  unfold setTask
  rw [List.map_map]
  apply List.map_congr_left
  intro u _
  by_cases hu : u.taskId = t'.taskId
  · simp [hu]
  · simp [hu]

theorem mem_setTask {st : AgentState} {t' u : Task}
    (hu : u ∈ (setTask st t').tasks) : u = t' ∨ u ∈ st.tasks := by
  unfold setTask at hu
  rcases List.mem_map.1 hu with ⟨v, hv, hvu⟩
  by_cases hid : v.taskId = t'.taskId
  · left
    rw [← hvu, if_pos hid]
  · right
    rw [← hvu, if_neg hid]
    exact hv

/-! ### Basic lemmas about step marking -/

theorem map_stepId_markCompleted (l : List TaskStep) (sid : Nat) (nxt : List Nat) :
    (markCompleted l sid nxt).map TaskStep.stepId = l.map TaskStep.stepId := by
  unfold markCompleted
  rw [List.map_map]
  apply List.map_congr_left
  intro s _
  by_cases hs : s.stepId = sid
  · simp [hs]
  · simp [hs]

theorem map_stepId_markFailed (l : List TaskStep) (sid : Nat) :
    (markFailed l sid).map TaskStep.stepId = l.map TaskStep.stepId := by
  unfold markFailed
  rw [List.map_map]
  apply List.map_congr_left
  intro s _
  by_cases hs : s.stepId = sid
  · simp [hs]
  · simp [hs]

theorem mem_markCompleted_of_ne {l : List TaskStep} {sid : Nat} {nxt : List Nat}
    {s : TaskStep} (hs : s ∈ l) (hne : s.stepId ≠ sid) :
    s ∈ markCompleted l sid nxt := by
  unfold markCompleted
  have := List.mem_map_of_mem
    (fun u : TaskStep => if u.stepId = sid then
      { u with stepState := .completed, nextSteps := u.nextSteps ++ nxt } else u) hs
  simpa [hne] using this

theorem mem_markCompleted_self {l : List TaskStep} {sid : Nat} {nxt : List Nat}
    {s : TaskStep} (hs : s ∈ l) (heq : s.stepId = sid) :
    ({ s with stepState := .completed, nextSteps := s.nextSteps ++ nxt } : TaskStep) ∈
      markCompleted l sid nxt := by
  unfold markCompleted
  have := List.mem_map_of_mem
    (fun u : TaskStep => if u.stepId = sid then
      { u with stepState := .completed, nextSteps := u.nextSteps ++ nxt } else u) hs
  simpa [heq] using this

theorem find?_stepId_markCompleted {l : List TaskStep} {sid x : Nat}
    (nxt : List Nat) (h : x ≠ sid) :
    (markCompleted l sid nxt).find? (fun s => s.stepId == x) =
      l.find? (fun s => s.stepId == x) := by
  unfold markCompleted
  rw [List.find?_map]
  have hpred : ((fun s : TaskStep => s.stepId == x) ∘
      fun s : TaskStep => if s.stepId = sid then
        { s with stepState := .completed, nextSteps := s.nextSteps ++ nxt }
      else s) = fun s : TaskStep => s.stepId == x := by
    funext s
    by_cases hs : s.stepId = sid
    · simp [hs, h, (fun he => h he.symm : ¬sid = x)]
    · simp [hs]
  rw [hpred]
  cases hf : l.find? (fun s : TaskStep => s.stepId == x) with
  | none => rfl
  | some s =>
    have hs : s.stepId = x := by simpa using List.find?_some hf
    have : ¬s.stepId = sid := by
      rw [hs]
      exact h
    simp [this]

theorem find?_stepId_markFailed {l : List TaskStep} {sid x : Nat}
    (h : x ≠ sid) :
    (markFailed l sid).find? (fun s => s.stepId == x) =
      l.find? (fun s => s.stepId == x) := by
  unfold markFailed
  rw [List.find?_map]
  have hpred : ((fun s : TaskStep => s.stepId == x) ∘
      fun s : TaskStep => if s.stepId = sid then { s with stepState := .failed }
      else s) = fun s : TaskStep => s.stepId == x := by
    funext s
    by_cases hs : s.stepId = sid
    · simp [hs, (fun he => h he.symm : ¬sid = x)]
    · simp [hs]
  rw [hpred]
  cases hf : l.find? (fun s : TaskStep => s.stepId == x) with
  | none => rfl
  | some s =>
    have hs : s.stepId = x := by simpa using List.find?_some hf
    have : ¬s.stepId = sid := by
      rw [hs]
      exact h
    simp [this]

/-! ### Lemmas about runnable steps -/

theorem filter_eq_singleton_of_le_one {α : Type} {l : List α} {p : α → Bool}
    {x : α} (hx : x ∈ l.filter p) (hle : (l.filter p).length ≤ 1) :
    l.filter p = [x] := by
  cases h : l.filter p with
  | nil => rw [h] at hx; cases hx
  | cons a tl =>
    cases tl with
    | nil =>
      rw [h] at hx
      rcases List.mem_singleton.1 hx with rfl
      rfl
    | cons b tl2 =>
      rw [h] at hle
      simp at hle

theorem length_filter_add_length_filter_le {α : Type} (l : List α)
    (p q : α → Bool) (h : ∀ a, p a = true → q a = false) :
    (l.filter p).length + (l.filter q).length ≤ l.length := by
  induction l with
  | nil => simp
  | cons a tl ih =>
    by_cases hp : p a
    · have hq : q a = false := h a hp
      simp [List.filter_cons, hp, hq]
      omega
    · by_cases hq : q a
      · simp [List.filter_cons, hp, hq]
        omega
      · simp [List.filter_cons, hp, hq]
        omega

theorem not_runnable_of_completed (s : TaskStep) (nxt : List Nat) :
    isRunnable { s with stepState := .completed, nextSteps := s.nextSteps ++ nxt }
      = false := by
  simp [isRunnable]

theorem not_runnable_of_failed (s : TaskStep) :
    isRunnable { s with stepState := .failed } = false := by
  simp [isRunnable]

theorem runnable_pending {s : TaskStep} (h : isRunnable s = true) :
    s.stepState = .pending ∧ s.isReady = true := by
  unfold isRunnable at h
  rw [Bool.and_eq_true] at h
  exact ⟨by simpa using h.2, h.1⟩

theorem filter_isRunnable_markCompleted {l : List TaskStep} {cur : TaskStep}
    (nxt : List Nat) (hl : l.filter isRunnable = [cur]) :
    (markCompleted l cur.stepId nxt).filter isRunnable = [] := by
  rw [List.filter_eq_nil_iff]
  intro u hu
  unfold markCompleted at hu
  rcases List.mem_map.1 hu with ⟨s, hs, rfl⟩
  by_cases hid : s.stepId = cur.stepId
  · simp [hid, isRunnable]
  · simp only [if_neg hid]
    intro hrun
    have : s ∈ l.filter isRunnable := List.mem_filter.2 ⟨hs, hrun⟩
    rw [hl] at this
    rcases List.mem_singleton.1 this with rfl
    exact hid rfl

theorem filter_isRunnable_markFailed {l : List TaskStep} {cur : TaskStep}
    (hl : l.filter isRunnable = [cur]) :
    (markFailed l cur.stepId).filter isRunnable = [] := by
  rw [List.filter_eq_nil_iff]
  intro u hu
  unfold markFailed at hu
  rcases List.mem_map.1 hu with ⟨s, hs, rfl⟩
  by_cases hid : s.stepId = cur.stepId
  · simp [hid, isRunnable]
  · simp only [if_neg hid]
    intro hrun
    have : s ∈ l.filter isRunnable := List.mem_filter.2 ⟨hs, hrun⟩
    rw [hl] at this
    rcases List.mem_singleton.1 this with rfl
    exact hid rfl

theorem length_markCompleted (l : List TaskStep) (sid : Nat) (nxt : List Nat) :
    (markCompleted l sid nxt).length = l.length := by
  unfold markCompleted
  exact List.length_map _ _

theorem length_markFailed (l : List TaskStep) (sid : Nat) :
    (markFailed l sid).length = l.length := by
  unfold markFailed
  exact List.length_map _ _

theorem mem_markFailed_of_ne {l : List TaskStep} {sid : Nat}
    {s : TaskStep} (hs : s ∈ l) (hne : s.stepId ≠ sid) :
    s ∈ markFailed l sid := by
  unfold markFailed
  have := List.mem_map_of_mem
    (fun u : TaskStep => if u.stepId = sid then { u with stepState := .failed } else u) hs
  simpa [hne] using this

theorem mem_markFailed_self {l : List TaskStep} {sid : Nat}
    {s : TaskStep} (hs : s ∈ l) (heq : s.stepId = sid) :
    ({ s with stepState := .failed } : TaskStep) ∈ markFailed l sid := by
  unfold markFailed
  have := List.mem_map_of_mem
    (fun u : TaskStep => if u.stepId = sid then { u with stepState := .failed } else u) hs
  simpa [heq] using this

theorem getLast?_append_singleton {α : Type} (l : List α) (a : α) :
    (l ++ [a]).getLast? = some a := by
  simp

/-! ### Consequences of the task invariant -/

theorem TaskInv.ids_nodup {t : Task} (h : TaskInv t) :
    (t.steps.map TaskStep.stepId).Nodup := by
  rw [h.ids_range]
  exact List.nodup_range _

theorem TaskInv.step_inj {t : Task} (h : TaskInv t) {s s' : TaskStep}
    (hs : s ∈ t.steps) (hs' : s' ∈ t.steps) (hid : s.stepId = s'.stepId) :
    s = s' :=
  List.inj_on_of_nodup_map h.ids_nodup hs hs' hid

theorem TaskInv.stepId_lt {t : Task} (h : TaskInv t) {s : TaskStep}
    (hs : s ∈ t.steps) : s.stepId < t.steps.length := by
  have : s.stepId ∈ t.steps.map TaskStep.stepId := List.mem_map_of_mem _ hs
  rw [h.ids_range] at this
  exact List.mem_range.1 this

theorem readyStep_mem {t : Task} {cur : TaskStep} (h : readyStep t = some cur) :
    cur ∈ t.steps :=
  List.mem_of_find?_eq_some h

theorem readyStep_runnable {t : Task} {cur : TaskStep}
    (h : readyStep t = some cur) : isRunnable cur = true :=
  List.find?_some h

theorem readyStep_filter {t : Task} {cur : TaskStep} (hinv : TaskInv t)
    (h : readyStep t = some cur) : t.steps.filter isRunnable = [cur] :=
  filter_eq_singleton_of_le_one
    (List.mem_filter.2 ⟨readyStep_mem h, readyStep_runnable h⟩)
    hinv.runnable_le_one

theorem readyStep_eq_none_iff (t : Task) :
    readyStep t = none ↔ upcomingSteps t = [] := by
  unfold readyStep upcomingSteps
  rw [List.find?_eq_none, List.filter_eq_nil_iff]

theorem completed_id_ne_cur {t : Task} {cur : TaskStep} (hinv : TaskInv t)
    (hr : readyStep t = some cur) {q : Nat × StepOutput} (hq : q ∈ t.completed) :
    q.1 ≠ cur.stepId := by
  intro heq
  rcases hinv.completed_mem q hq with ⟨s, hs, hsid, hstate⟩
  have hcur : s = cur := hinv.step_inj hs (readyStep_mem hr) (hsid.trans heq)
  have hpend := (runnable_pending (readyStep_runnable hr)).1
  rw [hcur, hpend] at hstate
  cases hstate

theorem result_none_of_ready {t : Task} (hinv : TaskInv t) {cur : TaskStep}
    (hr : readyStep t = some cur) : t.result = none := by
  cases hres : t.result with
  | none => rfl
  | some r =>
    rcases hinv.result_ok r hres with ⟨p, hp, hlast, _⟩
    have hnil := hinv.finished_no_runnable p hp hlast
    rw [readyStep_filter hinv hr] at hnil
    cases hnil

theorem execDecision_taskId (planner : Planner) (reg : Registry) (t : Task)
    (cur : TaskStep) : (execDecision planner reg t cur).2.taskId = t.taskId := by
  rcases hd : planner t.input (histRecs t) with ⟨name, args⟩ | text
  · rcases hrs : resolve reg name with _ | tl
    · simp [execDecision, hd, hrs]
    · simp [execDecision, hd, hrs]
  · simp [execDecision, hd]

theorem execDecision_result (planner : Planner) (reg : Registry) (t : Task)
    (cur : TaskStep) : (execDecision planner reg t cur).2.result = t.result := by
  rcases hd : planner t.input (histRecs t) with ⟨name, args⟩ | text
  · rcases hrs : resolve reg name with _ | tl
    · simp [execDecision, hd, hrs]
    · simp [execDecision, hd, hrs]
  · simp [execDecision, hd]

theorem execDecision_completed_prefix (planner : Planner) (reg : Registry)
    (t : Task) (cur : TaskStep) :
    t.completed <+: (execDecision planner reg t cur).2.completed := by
  rcases hd : planner t.input (histRecs t) with ⟨name, args⟩ | text
  · rcases hrs : resolve reg name with _ | tl
    · simp [execDecision, hd, hrs]
    · simp [execDecision, hd, hrs]
  · simp [execDecision, hd]

theorem execDecision_inv (planner : Planner) (reg : Registry) {t : Task}
    {cur : TaskStep} (hinv : TaskInv t) (hr : readyStep t = some cur) :
    TaskInv (execDecision planner reg t cur).2 := by
  have hfil : t.steps.filter isRunnable = [cur] := readyStep_filter hinv hr
  have hne : ∀ q ∈ t.completed, q.1 ≠ cur.stepId :=
    fun q hq => completed_id_ne_cur hinv hr hq
  have hresult : t.result = none := result_none_of_ready hinv hr
  have hnotmem : cur.stepId ∉ t.completed.map Prod.fst := by
    intro hmem
    rcases List.mem_map.1 hmem with ⟨q, hq, hq1⟩
    exact hne q hq hq1
  rcases hd : planner t.input (histRecs t) with ⟨name, args⟩ | text
  case finalAnswer =>
    have heq : (execDecision planner reg t cur).2 =
        { t with steps := markCompleted t.steps cur.stepId [],
                 completed := t.completed ++
                   [(cur.stepId, { output := text, isLast := true, toolCalls := [] })] } := by
      simp [execDecision, hd]
    rw [heq]
    refine ⟨?_, ?_, ?_, ?_, ?_, ?_⟩
    · show (markCompleted t.steps cur.stepId []).map TaskStep.stepId = _
      rw [map_stepId_markCompleted, length_markCompleted]
      exact hinv.ids_range
    · intro q hq
      rcases List.mem_append.1 hq with hq' | hq'
      · rcases hinv.completed_mem q hq' with ⟨s, hs, hsid, hst⟩
        refine ⟨s, mem_markCompleted_of_ne hs ?_, hsid, hst⟩
        rw [hsid]
        exact hne q hq'
      · rcases List.mem_singleton.1 hq' with rfl
        exact ⟨_, mem_markCompleted_self (readyStep_mem hr) rfl, rfl, rfl⟩
    · show ((t.completed ++ _).map Prod.fst).Nodup
      rw [List.map_append]
      simp only [List.map_cons, List.map_nil]
      rw [List.nodup_append]
      exact ⟨hinv.completed_nodup, List.nodup_singleton _, by
        intro a ha hb
        rcases List.mem_singleton.1 hb with rfl
        exact hnotmem ha⟩
    · show ((markCompleted t.steps cur.stepId []).filter isRunnable).length ≤ 1
      rw [filter_isRunnable_markCompleted _ hfil]
      simp
    · intro p _ _
      exact filter_isRunnable_markCompleted _ hfil
    · intro r hr0
      have h0 : t.result = some r := hr0
      rw [hresult] at h0
      cases h0
  case toolCall =>
    rcases hrs : resolve reg name with _ | tl
    · have heq : (execDecision planner reg t cur).2 =
          { t with steps := markFailed t.steps cur.stepId } := by
        simp [execDecision, hd, hrs]
      rw [heq]
      refine ⟨?_, ?_, ?_, ?_, ?_, ?_⟩
      · show (markFailed t.steps cur.stepId).map TaskStep.stepId = _
        rw [map_stepId_markFailed, length_markFailed]
        exact hinv.ids_range
      · intro q hq
        rcases hinv.completed_mem q hq with ⟨s, hs, hsid, hst⟩
        refine ⟨s, mem_markFailed_of_ne hs ?_, hsid, hst⟩
        rw [hsid]
        exact hne q hq
      · exact hinv.completed_nodup
      · show ((markFailed t.steps cur.stepId).filter isRunnable).length ≤ 1
        rw [filter_isRunnable_markFailed hfil]
        simp
      · intro p _ _
        exact filter_isRunnable_markFailed hfil
      · intro r hr0
        have h0 : t.result = some r := hr0
        rw [hresult] at h0
        cases h0
    · have heq : (execDecision planner reg t cur).2 =
          { t with steps := markCompleted t.steps cur.stepId
                     [(successorStep t cur).stepId] ++ [successorStep t cur],
                   completed := t.completed ++
                     [(cur.stepId,
                       { output := tl.run args, isLast := false,
                         toolCalls := [{ toolName := name, arguments := args,
                                         result := tl.run args }] })] } := by
        simp [execDecision, hd, hrs]
      rw [heq]
      refine ⟨?_, ?_, ?_, ?_, ?_, ?_⟩
      · show (_ ++ [successorStep t cur]).map TaskStep.stepId = _
        rw [List.map_append, map_stepId_markCompleted, List.length_append,
          length_markCompleted]
        simp [successorStep, hinv.ids_range, List.range_succ]
      · intro q hq
        rcases List.mem_append.1 hq with hq' | hq'
        · rcases hinv.completed_mem q hq' with ⟨s, hs, hsid, hst⟩
          refine ⟨s, List.mem_append_left _ (mem_markCompleted_of_ne hs ?_), hsid, hst⟩
          rw [hsid]
          exact hne q hq'
        · rcases List.mem_singleton.1 hq' with rfl
          exact ⟨_, List.mem_append_left _
            (mem_markCompleted_self (readyStep_mem hr) rfl), rfl, rfl⟩
      · show ((t.completed ++ _).map Prod.fst).Nodup
        rw [List.map_append]
        simp only [List.map_cons, List.map_nil]
        rw [List.nodup_append]
        exact ⟨hinv.completed_nodup, List.nodup_singleton _, by
          intro a ha hb
          rcases List.mem_singleton.1 hb with rfl
          exact hnotmem ha⟩
      · show ((_ ++ [successorStep t cur]).filter isRunnable).length ≤ 1
        rw [List.filter_append, filter_isRunnable_markCompleted _ hfil]
        simp [successorStep, isRunnable]
      · intro p hp hl
        rw [getLast?_append_singleton] at hp
        rcases Option.some.inj hp with rfl
        simp at hl
      · intro r hr0
        have h0 : t.result = some r := hr0
        rw [hresult] at h0
        cases h0

/-! ### Invariant preservation across the API -/

theorem taskInv_createTask (input : String) (st : AgentState) :
    TaskInv (createTask input st).1 := by
  refine ⟨?_, ?_, ?_, ?_, ?_, ?_⟩
  · simp [createTask, List.range_succ]
  · intro p hp
    simp [createTask] at hp
  · simp [createTask]
  · simp [createTask, isRunnable]
  · intro p hp
    simp [createTask] at hp
  · intro r h0
    simp [createTask] at h0

theorem stateInv_initState : StateInv initState := by
  constructor
  · intro t ht
    simp [initState] at ht
  · intro t ht
    simp [initState] at ht

theorem stateInv_createTask {st : AgentState} (input : String)
    (h : StateInv st) : StateInv (createTask input st).2 := by
  constructor
  · intro t ht
    simp only [createTask, List.mem_append, List.mem_singleton] at ht
    rcases ht with ht | rfl
    · exact Nat.lt_succ_of_lt (h.ids_lt t ht)
    · exact Nat.lt_succ_self _
  · intro t ht
    simp only [createTask, List.mem_append, List.mem_singleton] at ht
    rcases ht with ht | rfl
    · exact h.tasks_inv t ht
    · exact taskInv_createTask input st

theorem stateInv_runStep (planner : Planner) (reg : Registry) (tid : Nat)
    {st : AgentState} (h : StateInv st) :
    StateInv (runStep planner reg tid st).2 := by
  rcases hg : getTask st tid with _ | t
  · simpa [runStep, hg] using h
  · rcases hrd : readyStep t with _ | cur
    · simpa [runStep, hg, hrd] using h
    · have hT := h.tasks_inv t (mem_of_getTask hg)
      have hinv' := execDecision_inv planner reg hT hrd
      have htid' := execDecision_taskId planner reg t cur
      rcases he : execDecision planner reg t cur with ⟨r, t'⟩
      rw [he] at hinv' htid'
      have hstep : (runStep planner reg tid st).2 = setTask st t' := by
        simp [runStep, hg, hrd, he]
      rw [hstep]
      constructor
      · intro u hu
        rcases mem_setTask hu with rfl | hu'
        · show u.taskId < st.nextTaskId
          rw [htid']
          exact h.ids_lt t (mem_of_getTask hg)
        · exact h.ids_lt u hu'
      · intro u hu
        rcases mem_setTask hu with rfl | hu'
        · exact hinv'
        · exact h.tasks_inv u hu'

theorem stateInv_finalize (tid : Nat) {st : AgentState} (h : StateInv st) :
    StateInv (finalizeResponse tid st).2 := by
  rcases hg : getTask st tid with _ | t
  · simpa [finalizeResponse, hg] using h
  · rcases hres : t.result with _ | r
    · rcases hl : t.completed.getLast? with _ | p
      · simpa [finalizeResponse, hg, hres, hl] using h
      · by_cases hlast : p.2.isLast
        · have hT := h.tasks_inv t (mem_of_getTask hg)
          have hinv' : TaskInv { t with result := some p.2.output } :=
            ⟨hT.ids_range, hT.completed_mem, hT.completed_nodup,
             hT.runnable_le_one, hT.finished_no_runnable, by
              intro r0 hr0
              exact ⟨p, hl, hlast, by
                have : some p.2.output = some r0 := hr0
                exact (Option.some.inj this)⟩⟩
          have hstep : (finalizeResponse tid st).2 =
              { setTask st { t with result := some p.2.output } with
                memory := st.memory ++ taskHistory t } := by
            simp [finalizeResponse, hg, hres, hl, hlast]
          rw [hstep]
          constructor
          · intro u hu
            have hu2 : u ∈ (setTask st { t with result := some p.2.output }).tasks := hu
            rcases mem_setTask hu2 with rfl | hu'
            · exact h.ids_lt t (mem_of_getTask hg)
            · exact h.ids_lt u hu'
          · intro u hu
            have hu2 : u ∈ (setTask st { t with result := some p.2.output }).tasks := hu
            rcases mem_setTask hu2 with rfl | hu'
            · exact hinv'
            · exact h.tasks_inv u hu'
        · simpa [finalizeResponse, hg, hres, hl, hlast] using h
    · simpa [finalizeResponse, hg, hres] using h

theorem stateInv_applyOp (op : Op) {st : AgentState} (h : StateInv st) :
    StateInv (applyOp st op) := by
  cases op with
  | create input => exact stateInv_createTask input h
  | step planner reg tid => exact stateInv_runStep planner reg tid h
  | finalize tid => exact stateInv_finalize tid h

theorem stateInv_applyOps (ops : List Op) :
    ∀ st : AgentState, StateInv st → StateInv (applyOps st ops) := by
  induction ops with
  | nil => exact fun st h => h
  | cons o tl ih =>
    intro st h
    exact ih (applyOp st o) (stateInv_applyOp o h)

theorem reachable_stateInv {st : AgentState} (h : Reachable st) : StateInv st := by
  rcases h with ⟨ops, hops⟩
  rw [← hops]
  exact stateInv_applyOps ops initState stateInv_initState

/-! ### Memory frame lemmas -/

theorem createTask_memory (input : String) (st : AgentState) :
    (createTask input st).2.memory = st.memory := rfl

theorem runStep_memory (planner : Planner) (reg : Registry) (tid : Nat)
    (st : AgentState) : (runStep planner reg tid st).2.memory = st.memory := by
  rcases hg : getTask st tid with _ | t
  · simp [runStep, hg]
  · rcases hrd : readyStep t with _ | cur
    · simp [runStep, hg, hrd]
    · rcases he : execDecision planner reg t cur with ⟨r, t'⟩
      simp [runStep, hg, hrd, he, setTask]

theorem applyOps_memory {ops : List Op} (h : ∀ o ∈ ops, committing o = false) :
    ∀ st : AgentState, (applyOps st ops).memory = st.memory := by
  induction ops with
  | nil => exact fun st => rfl
  | cons o tl ih =>
    intro st
    have htl : ∀ o' ∈ tl, committing o' = false :=
      fun o' ho' => h o' (List.mem_cons_of_mem _ ho')
    have hstep : (applyOp st o).memory = st.memory := by
      cases o with
      | create input => rfl
      | step planner reg tid => exact runStep_memory planner reg tid st
      | finalize tid =>
        have := h _ (List.mem_cons_self _ _)
        simp [committing] at this
    rw [show applyOps st (o :: tl) = applyOps (applyOp st o) tl from rfl,
      ih htl, hstep]

/-! ### Finalize behaviour lemmas -/

theorem finalize_not_finished {st : AgentState} {tid : Nat} {t : Task}
    (hg : getTask st tid = some t) (hres : t.result = none)
    (hnl : ∀ q ∈ t.completed, q.2.isLast = false) :
    finalizeResponse tid st = (.error (.taskNotFinished tid), st) := by
  rcases hl : t.completed.getLast? with _ | p
  · simp [finalizeResponse, hg, hres, hl]
  · have hp : p ∈ t.completed := List.mem_of_getLast?_eq_some hl
    have : p.2.isLast = false := hnl p hp
    simp [finalizeResponse, hg, hres, hl, this]

theorem finalize_success {st : AgentState} {tid : Nat} {t : Task}
    {p : Nat × StepOutput} (hg : getTask st tid = some t)
    (hres : t.result = none) (hl : t.completed.getLast? = some p)
    (hlast : p.2.isLast = true) :
    finalizeResponse tid st =
      (.ok p.2.output,
       { setTask st { t with result := some p.2.output } with
         memory := st.memory ++ taskHistory t }) := by
  simp [finalizeResponse, hg, hres, hl, hlast]

theorem finalize_cached {st : AgentState} {tid : Nat} {t : Task} {r : String}
    (hg : getTask st tid = some t) (hres : t.result = some r) :
    finalizeResponse tid st = (.ok r, st) := by
  simp [finalizeResponse, hg, hres]

/-! ### Branch equations for the step executor -/

theorem execDecision_final_eq {planner : Planner} {reg : Registry} {t : Task}
    {cur : TaskStep} {text : String}
    (hd : planner t.input (histRecs t) = .finalAnswer text) :
    execDecision planner reg t cur =
      (.ok { output := text, isLast := true, toolCalls := [] },
       { t with steps := markCompleted t.steps cur.stepId [],
                completed := t.completed ++
                  [(cur.stepId, { output := text, isLast := true, toolCalls := [] })] }) := by
  simp [execDecision, hd]

theorem execDecision_tool_eq {planner : Planner} {reg : Registry} {t : Task}
    {cur : TaskStep} {name args : String} {tl : Tool}
    (hd : planner t.input (histRecs t) = .toolCall name args)
    (hrs : resolve reg name = some tl) :
    execDecision planner reg t cur =
      (.ok { output := tl.run args, isLast := false,
             toolCalls := [{ toolName := name, arguments := args,
                             result := tl.run args }] },
       { t with steps := markCompleted t.steps cur.stepId
                  [(successorStep t cur).stepId] ++ [successorStep t cur],
                completed := t.completed ++
                  [(cur.stepId,
                    { output := tl.run args, isLast := false,
                      toolCalls := [{ toolName := name, arguments := args,
                                      result := tl.run args }] })] }) := by
  simp [execDecision, hd, hrs]

theorem execDecision_missing_eq {planner : Planner} {reg : Registry} {t : Task}
    {cur : TaskStep} {name args : String}
    (hd : planner t.input (histRecs t) = .toolCall name args)
    (hrs : resolve reg name = none) :
    execDecision planner reg t cur =
      (.error (.unknownTool name),
       { t with steps := markFailed t.steps cur.stepId }) := by
  simp [execDecision, hd, hrs]

theorem runStep_eq {st : AgentState} {tid : Nat} {t : Task} {cur : TaskStep}
    (planner : Planner) (reg : Registry)
    (hg : getTask st tid = some t) (hr : readyStep t = some cur) :
    runStep planner reg tid st =
      ((execDecision planner reg t cur).1,
       setTask st (execDecision planner reg t cur).2) := by
  rcases he : execDecision planner reg t cur with ⟨r, t2⟩
  simp [runStep, hg, hr, he]

theorem execDecision_ok_completed {planner : Planner} {reg : Registry}
    {t : Task} {cur : TaskStep} {out : StepOutput} {t2 : Task}
    (h : execDecision planner reg t cur = (.ok out, t2)) :
    t2.completed = t.completed ++ [(cur.stepId, out)] := by
  rcases hd : planner t.input (histRecs t) with ⟨name, args⟩ | text
  · rcases hrs : resolve reg name with _ | tl
    · rw [execDecision_missing_eq hd hrs, Prod.mk.injEq] at h
      obtain ⟨h1, _⟩ := h
      cases h1
    · rw [execDecision_tool_eq hd hrs, Prod.mk.injEq] at h
      obtain ⟨h1, h2⟩ := h
      subst h2
      have h3 := Except.ok.inj h1
      subst h3
      rfl
  · rw [execDecision_final_eq hd, Prod.mk.injEq] at h
    obtain ⟨h1, h2⟩ := h
    subst h2
    have h3 := Except.ok.inj h1
    subst h3
    rfl

theorem getTask_memory_update (st0 : AgentState) (m : List String)
    (tid2 : Nat) : getTask { st0 with memory := m } tid2 = getTask st0 tid2 :=
  rfl

theorem map_taskId_runStep (planner : Planner) (reg : Registry) (tid : Nat)
    (st : AgentState) :
    ((runStep planner reg tid st).2).tasks.map Task.taskId =
      st.tasks.map Task.taskId := by
  rcases hg : getTask st tid with _ | t
  · simp [runStep, hg]
  · rcases hrd : readyStep t with _ | cur
    · simp [runStep, hg, hrd]
    · rcases he : execDecision planner reg t cur with ⟨r, t2⟩
      have hs : (runStep planner reg tid st).2 = setTask st t2 := by
        simp [runStep, hg, hrd, he]
      rw [hs, map_taskId_setTask]

theorem map_taskId_finalize (tid : Nat) (st : AgentState) :
    ((finalizeResponse tid st).2).tasks.map Task.taskId =
      st.tasks.map Task.taskId := by
  rcases hg : getTask st tid with _ | t
  · simp [finalizeResponse, hg]
  · rcases hres : t.result with _ | r
    · rcases hl : t.completed.getLast? with _ | p
      · simp [finalizeResponse, hg, hres, hl]
      · by_cases hlast : p.2.isLast
        · rw [finalize_success hg hres hl hlast]
          exact map_taskId_setTask st _
        · simp [finalizeResponse, hg, hres, hl, hlast]
    · simp [finalizeResponse, hg, hres]

theorem map_taskId_chatLoop (planner : Planner) (reg : Registry) (tid : Nat) :
    ∀ (fuel : Nat) (st : AgentState),
      ((chatLoop planner reg tid fuel st).2).tasks.map Task.taskId =
        st.tasks.map Task.taskId := by
  intro fuel
  induction fuel with
  | zero => intro st; rfl
  | succ n ih =>
    intro st
    rcases hr : runStep planner reg tid st with ⟨r, st'⟩
    have hstep : st'.tasks.map Task.taskId = st.tasks.map Task.taskId := by
      have h0 := map_taskId_runStep planner reg tid st
      rw [hr] at h0
      exact h0
    cases r with
    | error e =>
      simp only [chatLoop, hr]
      exact hstep
    | ok out =>
      by_cases hl : out.isLast
      · simp only [chatLoop, hr, hl, if_pos]
        rw [map_taskId_finalize]
        exact hstep
      · simp only [chatLoop, hr, hl, if_neg, Bool.false_eq_true, not_false_eq_true]
        rw [ih st']
        exact hstep

theorem chatLoop_eq_drive (planner : Planner) (reg : Registry) (tid : Nat) :
    ∀ (fuel : Nat) (st : AgentState),
      chatLoop planner reg tid fuel st =
        (match driveSteps planner reg tid fuel st with
         | (.error e, st2) => (.error e, st2)
         | (.ok _, st2) => finalizeResponse tid st2) := by
  intro fuel
  induction fuel with
  | zero => intro st; rfl
  | succ n ih =>
    intro st
    rcases hr : runStep planner reg tid st with ⟨r, st'⟩
    cases r with
    | error e => simp [chatLoop, driveSteps, hr]
    | ok out =>
      by_cases hl : out.isLast
      · simp [chatLoop, driveSteps, hr, hl]
      · simp [chatLoop, driveSteps, hr, hl, ih st']

/-! ### The claims -/

/-- C2: deferred-commit invariant: long-lived conversation memory is never
mutated by `create_task` or `run_step`, and any sequence of API calls
containing no `finalize_response` (a task run partially or fully but
abandoned before finalize) leaves memory unchanged; only finalize commits. -/
theorem memory_deferred_commit (input : String) (planner : Planner)
    (reg : Registry) (tid : Nat) (st : AgentState) (ops : List Op)
    (h : ∀ o ∈ ops, committing o = false) :
    (createTask input st).2.memory = st.memory ∧
    (runStep planner reg tid st).2.memory = st.memory ∧
    (applyOps st ops).memory = st.memory :=
  ⟨rfl, runStep_memory planner reg tid st, applyOps_memory h st⟩

/-- C3: end-to-end/step-wise equivalence: for every input, planner, registry
and fuel bound, `chat` (the notebook's out-of-the-box `run`) returns exactly
the same `Response` and the same resulting state (tasks, completed steps and
memory) as the step-wise sequence `create_task`, `run_step` until
`is_last = true`, then `finalize_response`. -/
theorem chat_eq_stepwise (planner : Planner) (reg : Registry) (input : String)
    (fuel : Nat) (st : AgentState) :
    chat planner reg input fuel st = stepwiseRun planner reg input fuel st := by
  rcases hc : createTask input st with ⟨t, st1⟩
  have h := chatLoop_eq_drive planner reg t.taskId fuel st1
  simp only [chat, stepwiseRun, hc]
  rw [h]

/-- C5: for every reachable state and task in which no completed step has
`is_last = true`, `finalize_response` fails with `TaskNotFinishedError` and
does not mutate long-lived memory (the state is unchanged). -/
theorem finalize_unfinished_fails {st : AgentState} {tid : Nat} {t : Task}
    (hre : Reachable st) (hg : getTask st tid = some t)
    (hnl : ∀ q ∈ t.completed, q.2.isLast = false) :
    finalizeResponse tid st = (.error (.taskNotFinished tid), st) ∧
    (finalizeResponse tid st).2.memory = st.memory := by
  have hinv := (reachable_stateInv hre).tasks_inv t (mem_of_getTask hg)
  have hres : t.result = none := by
    cases hres : t.result with
    | none => rfl
    | some r =>
      rcases hinv.result_ok r hres with ⟨p, hp, hlast, _⟩
      have hfalse := hnl p (List.mem_of_getLast?_eq_some hp)
      rw [hfalse] at hlast
      cases hlast
  have h := finalize_not_finished hg hres hnl
  exact ⟨h, by rw [h]⟩

/-- C6: for every task with no ready step, `run_step` fails with
`NoReadyStepError` leaving the state untouched (not a silent no-op); and
when a ready step exists, a successful `run_step` executes exactly one step,
namely that ready step: the task's completed list grows by exactly that one
entry. -/
theorem run_step_no_ready {st : AgentState} {tid : Nat} {t : Task}
    (planner : Planner) (reg : Registry) (hg : getTask st tid = some t) :
    (upcomingSteps t = [] →
      runStep planner reg tid st = (.error (.noReadyStep tid), st)) ∧
    (∀ cur, readyStep t = some cur →
      ∀ out st', runStep planner reg tid st = (.ok out, st') →
        ∃ t', getTask st' tid = some t' ∧
          t'.completed = t.completed ++ [(cur.stepId, out)]) := by
  constructor
  · intro hup
    have hnone : readyStep t = none := (readyStep_eq_none_iff t).2 hup
    simp [runStep, hg, hnone]
  · intro cur hcur out st' hrun
    rw [runStep_eq planner reg hg hcur, Prod.mk.injEq] at hrun
    obtain ⟨h1, h2⟩ := hrun
    rcases he : execDecision planner reg t cur with ⟨r, t2⟩
    rw [he] at h1 h2
    simp only at h1 h2
    subst h1
    refine ⟨t2, ?_, execDecision_ok_completed he⟩
    rw [← h2]
    refine getTask_setTask hg ?_
    have htid2 := execDecision_taskId planner reg t cur
    rw [he] at htid2
    rw [htid2]
    exact taskId_of_getTask hg

/-- C8: for every reachable state, `create_task(input)` allocates a fresh
task whose id differs from every existing task's, appends it to the store,
and the task contains exactly one initial `PENDING` step whose input equals
the task's input. -/
theorem create_task_fresh {st : AgentState} (hre : Reachable st)
    (input : String) :
    (∀ u ∈ st.tasks, u.taskId ≠ (createTask input st).1.taskId) ∧
    (createTask input st).2.tasks = st.tasks ++ [(createTask input st).1] ∧
    ∃ s : TaskStep, (createTask input st).1.steps = [s] ∧
      s.stepState = .pending ∧ (createTask input st).1.input = input ∧
      s.input = some ((createTask input st).1.input) := by
  have hinv := reachable_stateInv hre
  refine ⟨?_, rfl, ?_⟩
  · intro u hu heq
    have hlt := hinv.ids_lt u hu
    have h2 : (createTask input st).1.taskId = st.nextTaskId := rfl
    rw [heq, h2] at hlt
    exact lt_irrefl _ hlt
  · exact ⟨_, rfl, rfl, rfl, rfl⟩

/-- C1: `finalize_response` is idempotent: for every task whose most
recently completed step has `is_last = true` (and that has not been
finalized before, so `result` is still uncached), the first call returns a
`Response` and merges the task's step history into long-lived memory, and a
second call returns the byte-identical `Response` with the state (hence
memory) completely unchanged — the history is merged exactly once. -/
theorem finalize_response_idempotent {st : AgentState} {tid : Nat} {t : Task}
    {p : Nat × StepOutput} (hg : getTask st tid = some t)
    (hl : t.completed.getLast? = some p) (hlast : p.2.isLast = true)
    (hres : t.result = none) :
    ∃ st' : AgentState,
      finalizeResponse tid st = (.ok p.2.output, st') ∧
      finalizeResponse tid st' = (.ok p.2.output, st') ∧
      st'.memory = st.memory ++ taskHistory t := by
  have h1 := finalize_success hg hres hl hlast
  refine ⟨{ setTask st { t with result := some p.2.output } with
            memory := st.memory ++ taskHistory t }, h1, ?_, rfl⟩
  have htid0 : t.taskId = tid := taskId_of_getTask hg
  have htid : ({ t with result := some p.2.output } : Task).taskId = tid := htid0
  have hg2 : getTask { setTask st { t with result := some p.2.output } with
      memory := st.memory ++ taskHistory t } tid =
      some { t with result := some p.2.output } := by
    rw [getTask_memory_update]
    exact getTask_setTask hg htid
  exact finalize_cached hg2 rfl

/-- C10: finished tasks are retained: `finalize_response` never removes the
task from the Task Store — the stored task ids (creation order) are
unchanged and `get_completed_steps` returns the same full history for every
task — and the end-to-end `chat`/run path also keeps every pre-existing
task, appending exactly the one new task it created. -/
theorem finalize_frame_retention {st : AgentState} {tid : Nat}
    {r : Except EngineError String} {st' : AgentState} (planner : Planner)
    (reg : Registry) (input : String) (fuel : Nat)
    (h : finalizeResponse tid st = (r, st')) :
    ((listTasks st').map Task.taskId = (listTasks st).map Task.taskId ∧
     ∀ tid2, getCompletedSteps st' tid2 = getCompletedSteps st tid2) ∧
    (listTasks ((chat planner reg input fuel st).2)).map Task.taskId =
      (listTasks st).map Task.taskId ++ [st.nextTaskId] := by
  refine ⟨⟨?_, ?_⟩, ?_⟩
  · have h0 := map_taskId_finalize tid st
    rw [h] at h0
    exact h0
  · intro tid2
    have hcs : getCompletedSteps ((finalizeResponse tid st).2) tid2 =
        getCompletedSteps st tid2 := by
      rcases hg : getTask st tid with _ | t
      · simp [finalizeResponse, hg]
      · rcases hres : t.result with _ | r0
        · rcases hl : t.completed.getLast? with _ | p
          · simp [finalizeResponse, hg, hres, hl]
          · by_cases hlast : p.2.isLast
            · rw [finalize_success hg hres hl hlast]
              unfold getCompletedSteps
              rw [getTask_memory_update]
              have htid0 : t.taskId = tid := taskId_of_getTask hg
              by_cases htid2 : tid2 = tid
              · subst htid2
                have hset := getTask_setTask hg
                  (show ({ t with result := some p.2.output } : Task).taskId = tid2
                    from htid0)
                rw [hset, hg]
                rfl
              · rw [getTask_setTask_ne (by
                  show ({ t with result := some p.2.output } : Task).taskId ≠ tid2
                  show t.taskId ≠ tid2
                  rw [htid0]
                  exact fun he => htid2 he.symm)]
            · simp [finalizeResponse, hg, hres, hl, hlast]
        · simp [finalizeResponse, hg, hres]
    rw [h] at hcs
    exact hcs
  · rcases hc : createTask input st with ⟨t, st1⟩
    have h1 : (chat planner reg input fuel st).2 =
        (chatLoop planner reg t.taskId fuel st1).2 := by
      simp [chat, hc]
    have hsnd : (createTask input st).2 = st1 := by rw [hc]
    have hfst : (createTask input st).1 = t := by rw [hc]
    have h2 : st1.tasks = st.tasks ++ [t] := by
      rw [← hsnd, ← hfst]
      rfl
    have h3 : t.taskId = st.nextTaskId := by
      rw [← hfst]
      rfl
    simp only [listTasks]
    rw [h1, map_taskId_chatLoop, h2]
    simp [h3]

/-- C4: step transition semantics for a ready step: if the planner returns
`ToolCall` for a registered tool, the tool's raw result is appended to the
step's `tool_calls`, the returned `StepOutput` has `is_last = false`, and
exactly one fresh successor `PENDING` (ready) step is enqueued, with the
executed step's `next_steps` pointing to it; if the planner returns
`FinalAnswer`, `is_last = true`, no successor step is created, and the task
becomes terminal (no upcoming steps). -/
theorem run_step_transition {st : AgentState} {tid : Nat} {t : Task}
    {cur : TaskStep} (planner : Planner) (reg : Registry)
    (hre : Reachable st) (hg : getTask st tid = some t)
    (hr : readyStep t = some cur) :
    (∀ name args tl, planner t.input (histRecs t) = .toolCall name args →
       resolve reg name = some tl →
       ∃ st' t',
         runStep planner reg tid st =
           (.ok { output := tl.run args, isLast := false,
                  toolCalls := [{ toolName := name, arguments := args,
                                  result := tl.run args }] }, st') ∧
         getTask st' tid = some t' ∧
         t'.steps.length = t.steps.length + 1 ∧
         t'.steps.getLast? = some (successorStep t cur) ∧
         (successorStep t cur).stepState = .pending ∧
         (successorStep t cur).isReady = true ∧
         (successorStep t cur).prevSteps = [cur.stepId] ∧
         (∀ u ∈ t.steps, u.stepId ≠ (successorStep t cur).stepId) ∧
         ∃ c, c ∈ t'.steps ∧ c.stepId = cur.stepId ∧
           c.stepState = .completed ∧ (successorStep t cur).stepId ∈ c.nextSteps) ∧
    (∀ text, planner t.input (histRecs t) = .finalAnswer text →
       ∃ st' t',
         runStep planner reg tid st =
           (.ok { output := text, isLast := true, toolCalls := [] }, st') ∧
         getTask st' tid = some t' ∧
         t'.steps.length = t.steps.length ∧
         upcomingSteps t' = []) := by
  have hinv := (reachable_stateInv hre).tasks_inv t (mem_of_getTask hg)
  have htid : t.taskId = tid := taskId_of_getTask hg
  constructor
  · intro name args tl hd hrs
    have he := @execDecision_tool_eq planner reg t cur name args tl hd hrs
    have hrun := runStep_eq planner reg hg hr
    rw [he] at hrun
    simp only at hrun
    refine ⟨_, _, hrun, getTask_setTask hg htid, ?_, ?_, rfl, rfl, rfl, ?_, ?_⟩
    · show (markCompleted t.steps cur.stepId _ ++ _).length = t.steps.length + 1
      rw [List.length_append, length_markCompleted]
      rfl
    · exact getLast?_append_singleton _ _
    · intro u hu heq
      have hlt := hinv.stepId_lt hu
      have : (successorStep t cur).stepId = t.steps.length := rfl
      rw [heq, this] at hlt
      exact lt_irrefl _ hlt
    · have hself := @mem_markCompleted_self t.steps cur.stepId
        [(successorStep t cur).stepId] cur (readyStep_mem hr) rfl
      have hcmem := List.mem_append_left [successorStep t cur] hself
      refine ⟨_, hcmem, rfl, rfl, ?_⟩
      exact List.mem_append_right _ (List.mem_singleton_self _)
  · intro text hd
    have he := @execDecision_final_eq planner reg t cur text hd
    have hrun := runStep_eq planner reg hg hr
    rw [he] at hrun
    simp only at hrun
    refine ⟨_, _, hrun, getTask_setTask hg htid, ?_, ?_⟩
    · exact length_markCompleted _ _ _
    · show (markCompleted t.steps cur.stepId []).filter isRunnable = []
      exact filter_isRunnable_markCompleted _ (readyStep_filter hinv hr)

/-- C9: failed tool call: when the planner requests a tool name that the
registry does not bind, `run_step` surfaces `UnknownToolError` (not
swallowed), the executed step is recorded `FAILED`, no successor step is
created so the task's upcoming steps become empty, previously completed
steps remain readable unchanged, memory is untouched and `finalize_response`
refuses to commit the task with `TaskNotFinishedError`. -/
theorem unknown_tool_failure {st : AgentState} {tid : Nat} {t : Task}
    {cur : TaskStep} {name args : String} (planner : Planner) (reg : Registry)
    (hre : Reachable st) (hg : getTask st tid = some t)
    (hr : readyStep t = some cur)
    (hd : planner t.input (histRecs t) = .toolCall name args)
    (hrs : resolve reg name = none)
    (hnl : ∀ q ∈ t.completed, q.2.isLast = false) :
    ∃ st' t',
      runStep planner reg tid st = (.error (.unknownTool name), st') ∧
      getTask st' tid = some t' ∧
      (∃ f, f ∈ t'.steps ∧ f.stepId = cur.stepId ∧ f.stepState = .failed) ∧
      upcomingSteps t' = [] ∧
      completedSteps t' = completedSteps t ∧
      st'.memory = st.memory ∧
      finalizeResponse tid st' = (.error (.taskNotFinished tid), st') := by
  have hinv := (reachable_stateInv hre).tasks_inv t (mem_of_getTask hg)
  have htid : t.taskId = tid := taskId_of_getTask hg
  have he := @execDecision_missing_eq planner reg t cur name args hd hrs
  have hrun := runStep_eq planner reg hg hr
  rw [he] at hrun
  simp only at hrun
  have hg' : getTask (setTask st { t with steps := markFailed t.steps cur.stepId })
      tid = some { t with steps := markFailed t.steps cur.stepId } :=
    getTask_setTask hg htid
  refine ⟨_, _, hrun, hg', ?_, ?_, ?_, rfl, ?_⟩
  · exact ⟨{ cur with stepState := .failed },
      mem_markFailed_self (readyStep_mem hr) rfl, rfl, rfl⟩
  · show (markFailed t.steps cur.stepId).filter isRunnable = []
    exact filter_isRunnable_markFailed (readyStep_filter hinv hr)
  · show t.completed.filterMap
        (fun p => (markFailed t.steps cur.stepId).find? (fun s => s.stepId == p.1)) =
      t.completed.filterMap (fun p => t.steps.find? (fun s => s.stepId == p.1))
    apply List.filterMap_congr
    intro q hq
    exact find?_stepId_markFailed (completed_id_ne_cur hinv hr hq)
  · have hres0 : t.result = none := result_none_of_ready hinv hr
    exact finalize_not_finished hg' hres0 hnl

/-- C7: completed/upcoming disjointness and bound: in every reachable state,
each task satisfies `len(completed_steps) + len(upcoming_steps) ≤` total
steps ever created (steps are never deleted, so the arena is that total), no
step is in both lists, and every upcoming step is ready and not yet
executed; moreover the completed list is append-only (strictly ordered by
execution): any further API call extends it only at the tail. -/
theorem task_lists_invariant {st : AgentState} {tid : Nat} {t : Task}
    (hre : Reachable st) (hg : getTask st tid = some t) :
    ((completedSteps t).length + (upcomingSteps t).length ≤ t.steps.length ∧
     (∀ s, s ∈ completedSteps t → s ∉ upcomingSteps t) ∧
     (∀ s ∈ upcomingSteps t, s.isReady = true ∧ s.stepState = .pending)) ∧
    (∀ op : Op, ∃ t', getTask (applyOp st op) tid = some t' ∧
       t.completed <+: t'.completed) := by
  have hinv := (reachable_stateInv hre).tasks_inv t (mem_of_getTask hg)
  constructor
  · refine ⟨?_, ?_, ?_⟩
    · have h1 : (completedSteps t).length ≤ t.completed.length :=
        List.length_filterMap_le _ _
      have hsub : (t.completed.map Prod.fst) ⊆
          ((t.steps.filter
            (fun s => s.stepState == StepState.completed)).map TaskStep.stepId) := by
        intro x hx
        rcases List.mem_map.1 hx with ⟨q, hq, rfl⟩
        rcases hinv.completed_mem q hq with ⟨s, hs, hsid, hstate⟩
        exact List.mem_map.2 ⟨s, List.mem_filter.2 ⟨hs, by simp [hstate]⟩, hsid⟩
      have h2 : t.completed.length ≤
          (t.steps.filter (fun s => s.stepState == StepState.completed)).length := by
        have hsp := (hinv.completed_nodup.subperm hsub).length_le
        simpa using hsp
      have h3 : (t.steps.filter (fun s => s.stepState == StepState.completed)).length +
          (t.steps.filter isRunnable).length ≤ t.steps.length := by
        apply length_filter_add_length_filter_le
        intro s hp
        have hsc : s.stepState = StepState.completed := by simpa using hp
        simp [isRunnable, hsc]
      have h4 : (upcomingSteps t).length = (t.steps.filter isRunnable).length := rfl
      omega
    · intro s hs hup
      rcases List.mem_filterMap.1 hs with ⟨q, hq, hfind⟩
      have hsid : s.stepId = q.1 := by simpa using List.find?_some hfind
      have hmem : s ∈ t.steps := List.mem_of_find?_eq_some hfind
      rcases hinv.completed_mem q hq with ⟨s2, hs2, hs2id, hs2state⟩
      have hss : s = s2 := hinv.step_inj hmem hs2 (by rw [hsid, hs2id])
      have hrun := (List.mem_filter.1 hup).2
      have hpend := (runnable_pending hrun).1
      rw [hss, hs2state] at hpend
      cases hpend
    · intro s hs
      have hrun := (List.mem_filter.1 hs).2
      exact ⟨(runnable_pending hrun).2, (runnable_pending hrun).1⟩
  · intro op
    cases op with
    | create input =>
      simp only [applyOp]
      refine ⟨t, ?_, List.prefix_rfl⟩
      show getTask (createTask input st).2 tid = some t
      unfold getTask
      have hts : (createTask input st).2.tasks =
          st.tasks ++ [(createTask input st).1] := rfl
      rw [hts, List.find?_append]
      unfold getTask at hg
      rw [hg]
      rfl
    | step planner reg tid0 =>
      simp only [applyOp]
      rcases hg0 : getTask st tid0 with _ | u
      · have hunch : (runStep planner reg tid0 st).2 = st := by simp [runStep, hg0]
        rw [hunch]
        exact ⟨t, hg, List.prefix_rfl⟩
      · rcases hr0 : readyStep u with _ | cur0
        · have hunch : (runStep planner reg tid0 st).2 = st := by
            simp [runStep, hg0, hr0]
          rw [hunch]
          exact ⟨t, hg, List.prefix_rfl⟩
        · have hrun := runStep_eq planner reg hg0 hr0
          have hsnd : (runStep planner reg tid0 st).2 =
              setTask st (execDecision planner reg u cur0).2 :=
            congrArg Prod.snd hrun
          rw [hsnd]
          have htid2 := execDecision_taskId planner reg u cur0
          by_cases hsame : u.taskId = tid
          · have htid0 : u.taskId = tid0 := taskId_of_getTask hg0
            have heq : tid0 = tid := by rw [← htid0, hsame]
            subst heq
            rw [hg] at hg0
            have hut : u = t := (Option.some.inj hg0).symm
            subst hut
            exact ⟨(execDecision planner reg u cur0).2,
              getTask_setTask hg (by rw [htid2, hsame]),
              execDecision_completed_prefix planner reg u cur0⟩
          · refine ⟨t, ?_, List.prefix_rfl⟩
            rw [getTask_setTask_ne (by rw [htid2]; exact hsame)]
            exact hg
    | finalize tid0 =>
      simp only [applyOp]
      rcases hg0 : getTask st tid0 with _ | u
      · have hunch : (finalizeResponse tid0 st).2 = st := by
          simp [finalizeResponse, hg0]
        rw [hunch]
        exact ⟨t, hg, List.prefix_rfl⟩
      · rcases hres : u.result with _ | r0
        · rcases hl : u.completed.getLast? with _ | p
          · have hunch : (finalizeResponse tid0 st).2 = st := by
              simp [finalizeResponse, hg0, hres, hl]
            rw [hunch]
            exact ⟨t, hg, List.prefix_rfl⟩
          · by_cases hlast : p.2.isLast
            · have hfs := finalize_success hg0 hres hl hlast
              have hsnd : (finalizeResponse tid0 st).2 =
                  { setTask st { u with result := some p.2.output } with
                    memory := st.memory ++ taskHistory u } :=
                congrArg Prod.snd hfs
              rw [hsnd]
              by_cases hsame : u.taskId = tid
              · have htid0 : u.taskId = tid0 := taskId_of_getTask hg0
                have heq : tid0 = tid := by rw [← htid0, hsame]
                subst heq
                rw [hg] at hg0
                have hut : u = t := (Option.some.inj hg0).symm
                subst hut
                refine ⟨{ u with result := some p.2.output }, ?_, ?_⟩
                · rw [getTask_memory_update]
                  exact getTask_setTask hg hsame
                · exact List.prefix_rfl
              · refine ⟨t, ?_, List.prefix_rfl⟩
                rw [getTask_memory_update,
                  getTask_setTask_ne (show ({ u with result := some p.2.output } :
                    Task).taskId ≠ tid from hsame)]
                exact hg
            · have hunch : (finalizeResponse tid0 st).2 = st := by
                simp [finalizeResponse, hg0, hres, hl, hlast]
              rw [hunch]
              exact ⟨t, hg, List.prefix_rfl⟩
        · have hunch : (finalizeResponse tid0 st).2 = st := by
            simp [finalizeResponse, hg0, hres]
          rw [hunch]
          exact ⟨t, hg, List.prefix_rfl⟩

/-! ### Witnesses -/

/-- Witness for the idempotence theorem on the concrete finished task of
`exSt1`. -/
theorem finalize_response_idempotent_witness :
    getTask exSt1 0 = some exTask1 ∧
    exTask1.completed.getLast? = some (0, exOut) ∧
    (0, exOut).2.isLast = true ∧
    exTask1.result = none ∧
    ∃ st' : AgentState,
      finalizeResponse 0 exSt1 = (.ok (0, exOut).2.output, st') ∧
      finalizeResponse 0 st' = (.ok (0, exOut).2.output, st') ∧
      st'.memory = exSt1.memory ++ taskHistory exTask1 :=
  ⟨by decide, by decide, by decide, by decide,
   finalize_response_idempotent (by decide) (by decide) (by decide) (by decide)⟩

/-- Witness for the deferred-commit theorem on a concrete finalize-free call
sequence. -/
theorem memory_deferred_commit_witness :
    (∀ o ∈ exOps, committing o = false) ∧
    ((createTask "x" initState).2.memory = initState.memory ∧
     (runStep plannerFinal [] 0 initState).2.memory = initState.memory ∧
     (applyOps initState exOps).memory = initState.memory) :=
  ⟨by decide,
   memory_deferred_commit "x" plannerFinal [] 0 initState exOps (by decide)⟩

/-- Witness for the unfinished-finalize theorem on the freshly created task
of `exSt0`. -/
theorem finalize_unfinished_fails_witness :
    Reachable exSt0 ∧ getTask exSt0 0 = some exTask0 ∧
    (∀ q ∈ exTask0.completed, q.2.isLast = false) ∧
    (finalizeResponse 0 exSt0 = (.error (.taskNotFinished 0), exSt0) ∧
     (finalizeResponse 0 exSt0).2.memory = exSt0.memory) :=
  ⟨⟨[Op.create "What is 2+2?"], rfl⟩, rfl, by decide,
   finalize_unfinished_fails ⟨[Op.create "What is 2+2?"], rfl⟩ rfl (by decide)⟩

/-- Witness for the no-ready-step theorem on the already-terminal task of
`exSt1`. -/
theorem run_step_no_ready_witness :
    getTask exSt1 0 = some exTask1 ∧
    ((upcomingSteps exTask1 = [] →
       runStep plannerFinal [] 0 exSt1 = (.error (.noReadyStep 0), exSt1)) ∧
     (∀ cur, readyStep exTask1 = some cur →
       ∀ out st', runStep plannerFinal [] 0 exSt1 = (.ok out, st') →
         ∃ t', getTask st' 0 = some t' ∧
           t'.completed = exTask1.completed ++ [(cur.stepId, out)])) :=
  ⟨by decide, run_step_no_ready plannerFinal [] (by decide)⟩

/-- Witness for the freshness theorem: creating a second task on top of
`exSt0`. -/
theorem create_task_fresh_witness :
    Reachable exSt0 ∧
    ((∀ u ∈ exSt0.tasks, u.taskId ≠ (createTask "B" exSt0).1.taskId) ∧
     (createTask "B" exSt0).2.tasks = exSt0.tasks ++ [(createTask "B" exSt0).1] ∧
     ∃ s : TaskStep, (createTask "B" exSt0).1.steps = [s] ∧
       s.stepState = .pending ∧ (createTask "B" exSt0).1.input = "B" ∧
       s.input = some ((createTask "B" exSt0).1.input)) :=
  ⟨⟨[Op.create "What is 2+2?"], rfl⟩,
   create_task_fresh ⟨[Op.create "What is 2+2?"], rfl⟩ "B"⟩

/-- Witness for the step-transition theorem on the echo scenario, tool-call
branch instantiated at the `echo` tool. -/
theorem run_step_transition_witness :
    Reachable exStE ∧ getTask exStE 0 = some exTaskE ∧
    readyStep exTaskE = some exCurE ∧
    plannerEcho exTaskE.input (histRecs exTaskE) = .toolCall "echo" "hi" ∧
    resolve regEcho "echo" = some echoTool ∧
    ∃ st' t',
      runStep plannerEcho regEcho 0 exStE =
        (.ok { output := "hi", isLast := false,
               toolCalls := [{ toolName := "echo", arguments := "hi",
                               result := "hi" }] }, st') ∧
      getTask st' 0 = some t' ∧
      t'.steps.length = exTaskE.steps.length + 1 ∧
      t'.steps.getLast? = some (successorStep exTaskE exCurE) ∧
      (successorStep exTaskE exCurE).stepState = .pending ∧
      (successorStep exTaskE exCurE).isReady = true ∧
      (successorStep exTaskE exCurE).prevSteps = [exCurE.stepId] ∧
      (∀ u ∈ exTaskE.steps, u.stepId ≠ (successorStep exTaskE exCurE).stepId) ∧
      ∃ c, c ∈ t'.steps ∧ c.stepId = exCurE.stepId ∧
        c.stepState = .completed ∧
        (successorStep exTaskE exCurE).stepId ∈ c.nextSteps :=
  ⟨⟨[Op.create "q"], rfl⟩, rfl, rfl, rfl, rfl,
   (@run_step_transition exStE 0 exTaskE exCurE plannerEcho regEcho
     ⟨[Op.create "q"], rfl⟩ rfl rfl).1 "echo" "hi" echoTool rfl rfl⟩

/-- Witness for the bound/disjointness theorem on the finished task of
`exSt1`. -/
theorem task_lists_invariant_witness :
    Reachable exSt1 ∧ getTask exSt1 0 = some exTask1 ∧
    (((completedSteps exTask1).length + (upcomingSteps exTask1).length ≤
        exTask1.steps.length ∧
      (∀ s, s ∈ completedSteps exTask1 → s ∉ upcomingSteps exTask1) ∧
      (∀ s ∈ upcomingSteps exTask1, s.isReady = true ∧ s.stepState = .pending)) ∧
     (∀ op : Op, ∃ t', getTask (applyOp exSt1 op) 0 = some t' ∧
        exTask1.completed <+: t'.completed)) :=
  ⟨⟨exOps, rfl⟩, by decide, task_lists_invariant ⟨exOps, rfl⟩ (by decide)⟩

/-- Witness for the unknown-tool theorem: the planner requests `missing`
against an empty registry on the fresh task of `exStE`. -/
theorem unknown_tool_failure_witness :
    Reachable exStE ∧ getTask exStE 0 = some exTaskE ∧
    readyStep exTaskE = some exCurE ∧
    plannerMissing exTaskE.input (histRecs exTaskE) = .toolCall "missing" "x" ∧
    resolve [] "missing" = none ∧
    (∀ q ∈ exTaskE.completed, q.2.isLast = false) ∧
    ∃ st' t',
      runStep plannerMissing [] 0 exStE = (.error (.unknownTool "missing"), st') ∧
      getTask st' 0 = some t' ∧
      (∃ f, f ∈ t'.steps ∧ f.stepId = exCurE.stepId ∧ f.stepState = .failed) ∧
      upcomingSteps t' = [] ∧
      completedSteps t' = completedSteps exTaskE ∧
      st'.memory = exStE.memory ∧
      finalizeResponse 0 st' = (.error (.taskNotFinished 0), st') :=
  ⟨⟨[Op.create "q"], rfl⟩, rfl, rfl, rfl, rfl, by decide,
   @unknown_tool_failure exStE 0 exTaskE exCurE "missing" "x" plannerMissing []
     ⟨[Op.create "q"], rfl⟩ rfl rfl rfl rfl (by decide)⟩

/-- Witness for the retention theorem: finalizing the finished task of
`exSt1`. -/
theorem finalize_frame_retention_witness :
    finalizeResponse 0 exSt1 = (.ok "4", exSt2) ∧
    (((listTasks exSt2).map Task.taskId = (listTasks exSt1).map Task.taskId ∧
      ∀ tid2, getCompletedSteps exSt2 tid2 = getCompletedSteps exSt1 tid2) ∧
     (listTasks ((chat plannerFinal [] "w" 3 exSt1).2)).map Task.taskId =
       (listTasks exSt1).map Task.taskId ++ [exSt1.nextTaskId]) :=
  ⟨rfl, @finalize_frame_retention exSt1 0 (.ok "4") exSt2 plannerFinal [] "w" 3 rfl⟩

end AgentRunner
